import Mathlib

/-!
Verification development for the astra-erp repository (multi-tenant
small-business management web application).  The development embeds, as
executable Lean definitions, the pieces of the program that the spec's
testable properties talk about: the shift-scheduling pipeline (heuristic
assigner, AI-response parsing and validation, schedule writer) and the
frontend handlers for inventory quantity updates, permission checks and
employee strength selection.  The frontend handlers are translated from
the TypeScript sources; the scheduling backend is not present in the
source tree and is modelled from the specification, as marked on each
such definition.
-/

namespace Astra

/-! ## Authentication context permission checks (AuthContext.tsx) -/

/-- Client auth state as kept by the AuthContext provider: the stored
role (null until login) and the stored permissions list. -/
structure AuthState where
  role : Option String
  permissions : List String
deriving Repr

/-- Translation of hasPermission: admin role bypasses the stored list,
otherwise membership of the permission in the stored list decides. -/
def hasPermission (st : AuthState) (permission : String) : Bool :=
  if st.role == some "admin" then true
  else st.permissions.contains permission

/-- Translation of hasAnyPermission: admin bypass, otherwise some
requested permission is in the stored list. -/
def hasAnyPermission (st : AuthState) (perms : List String) : Bool :=
  if st.role == some "admin" then true
  else perms.any (fun perm => st.permissions.contains perm)

/-- Translation of hasAllPermissions: admin bypass, otherwise every
requested permission is in the stored list. -/
def hasAllPermissions (st : AuthState) (perms : List String) : Bool :=
  if st.role == some "admin" then true
  else perms.all (fun perm => st.permissions.contains perm)

/-- Translation of isAdmin. -/
def isAdmin (st : AuthState) : Bool :=
  st.role == some "admin"

/-! ## Inventory quantity handlers (Inventory page) -/

/-- The fields of an inventory item that the quantity handlers read. -/
structure InvItem where
  itemId : Nat
  currentQuantity : Int
deriving Repr

/-- JavaScript parseInt with radix 10 on a user-supplied string:
leading whitespace is skipped, an optional sign is consumed, then the
longest prefix of decimal digits; no digits gives NaN (modelled as
none). -/
def parseIntJS (s : String) : Option Int :=
  let cs := s.data.dropWhile (fun c => c == ' ' || c == '\t' || c == '\n' || c == '\r')
  let signAndRest : Int × List Char :=
    match cs with
    | '-' :: r => (-1, r)
    | '+' :: r => (1, r)
    | r => (1, r)
  let digits := signAndRest.2.takeWhile Char.isDigit
  if digits.isEmpty then none
  else some (signAndRest.1 * (digits.foldl (fun n c => 10 * n + (c.toNat - 48)) 0 : Nat))

/-- Translation of handleUseItem: when the current quantity is at or
below zero no PUT request is issued (the handler returns after showing
an out-of-stock notification); otherwise a PUT carrying quantity - 1 is
issued.  The returned value is the quantity carried by the PUT request,
none when no request is issued. -/
def handleUseItem (item : InvItem) : Option Int :=
  if item.currentQuantity ≤ 0 then none
  else some (item.currentQuantity - 1)

/-- Translation of handleAddItem: a PUT carrying quantity + 1 is issued
unconditionally. -/
def handleAddItem (item : InvItem) : Option Int :=
  some (item.currentQuantity + 1)

/-- Translation of handleBulkAdjust: an empty prompt answer aborts, a
non-numeric answer aborts, a resulting quantity below zero aborts;
otherwise a PUT carrying the adjusted quantity is issued. -/
def handleBulkAdjust (item : InvItem) (amount : String) : Option Int :=
  if amount == "" then none
  else
    match parseIntJS amount with
    | none => none
    | some adjustment =>
      let newQuantity := item.currentQuantity + adjustment
      if newQuantity < 0 then none
      else some newQuantity

/-! ## Employee strength selection (Employees pages) -/

/-- Option values of the strength select on the current Employees page
(the profiles-backed revision): the payload of handleStrengthUpdate is
always one of these. -/
def currentStrengthOptions : List String :=
  ["new", "normal", "shiftleader"]

/-- Option values of the strength select on the legacy Employees page
(the create-form revision). -/
def legacyStrengthOptions : List String :=
  ["strong", "normal", "new"]

/-- Strength values the legacy create form can submit: the initial form
state is "normal" and the select only replaces it by one of its option
values. -/
inductive LegacyFormStrength : String → Prop
  | init : LegacyFormStrength "normal"
  | select (s : String) (h : s ∈ legacyStrengthOptions) : LegacyFormStrength s

/-- Strength values the current page's update handler can submit: the
select's value set. -/
inductive CurrentStrengthUpdate : String → Prop
  | select (s : String) (h : s ∈ currentStrengthOptions) : CurrentStrengthUpdate s

/-! ## Scheduling data model

Modelled from the spec: the scheduling backend (FastAPI service) is not
in the source tree; the data model follows spec section 3. -/

/-- Modelled from the spec: an employee record with identity, strength
classification and active flag (spec section 3, Employee). -/
structure Employee where
  eid : String
  strength : String
  active : Bool
deriving DecidableEq, Repr

/-- Modelled from the spec: an availability entry (employee, calendar
date, available flag) (spec section 3, Availability Entry).  Calendar
dates are day numbers. -/
structure AvailabilityEntry where
  emp : String
  date : Nat
  available : Bool
deriving DecidableEq, Repr

/-- Modelled from the spec: a shift slot (day-of-week, slot name, start
and end time, required headcount) for one business (spec section 3,
Shift Slot).  `sid` is the slot's row identifier used by references. -/
structure ShiftSlot where
  sid : String
  day : Nat
  slotName : String
  startTime : Nat
  endTime : Nat
  required : Nat
deriving DecidableEq, Repr

/-- Modelled from the spec: a shift assignment produced by a generation
run (spec section 3, Shift Assignment); `date` is the calendar date of
the shift (week start plus the slot's day-of-week). -/
structure Assignment where
  sid : String
  emp : String
  date : Nat
  startTime : Nat
  endTime : Nat
deriving DecidableEq, Repr

/-! ## Heuristic Assigner

Modelled from the spec: the deterministic greedy fallback algorithm of
spec section 4.1, absent from the source tree. -/

/-- Modelled from the spec: availability of an employee on a date.  The
employee's entry for the date must exist and carry `available = true`;
absence of an entry is treated as unavailable (spec section 4.1 step 2). -/
def availableOn (avail : List AvailabilityEntry) (e : String) (d : Nat) : Bool :=
  match avail.find? (fun a => a.emp == e && a.date == d) with
  | some ent => ent.available
  | none => false

/-- Whether an employee already holds an assignment on a date. -/
def bookedOn (asgs : List Assignment) (e : String) (d : Nat) : Bool :=
  asgs.any (fun a => a.emp == e && a.date == d)

/-- Modelled from the spec: the candidate pool for a slot on date `d` -
active employees available on `d` and not already assigned that day
(spec section 4.1 steps 2 and 4). -/
def candidatePool (emps : List Employee) (avail : List AvailabilityEntry)
    (asgs : List Assignment) (d : Nat) : List Employee :=
  emps.filter (fun e => e.active && availableOn avail e.eid d && !(bookedOn asgs e.eid d))

/-- Number of assignments an employee has received so far in the run
(the rotation counter of spec section 4.1 step 3). -/
def assignCount (asgs : List Assignment) (e : String) : Nat :=
  (asgs.filter (fun a => a.emp == e)).length

/-- Number of assignments already made for a slot id. -/
def countSlot (asgs : List Assignment) (sid : String) : Nat :=
  (asgs.filter (fun a => a.sid == sid)).length

/-- Candidate with the fewest assignments so far, ties broken by stable
input order (spec section 4.1 step 3). -/
def pickLeastLoaded (asgs : List Assignment) : List Employee → Option Employee
  | [] => none
  | e :: es =>
    some (es.foldl
      (fun best c => if assignCount asgs c.eid < assignCount asgs best.eid then c else best) e)

/-- Modelled from the spec: selection of the next employee for a slot.
The least-loaded candidate is preferred; the pairing rule of spec
section 4.1 step 3 is applied when the slot is still empty: a "new"
employee is not chosen as the slot's first member while a non-new
candidate is available. -/
def pickCandidate (asgs : List Assignment) (slotCount : Nat)
    (pool : List Employee) : Option Employee :=
  match pickLeastLoaded asgs pool with
  | none => none
  | some e =>
    if slotCount == 0 && e.strength == "new" then
      match pickLeastLoaded asgs (pool.filter (fun c => !(c.strength == "new"))) with
      | some e2 => some e2
      | none => some e
    else some e

/-- Modelled from the spec: fill one slot, selecting one employee per
pass until the headcount is filled or the pool is exhausted (spec
section 4.1 step 3); the selected employee leaves the day's pool by
virtue of becoming booked (step 4). -/
def fillSlot (emps : List Employee) (avail : List AvailabilityEntry)
    (s : ShiftSlot) (d : Nat) : Nat → List Assignment → List Assignment
  | 0, asgs => asgs
  | n + 1, asgs =>
    match pickCandidate asgs (countSlot asgs s.sid) (candidatePool emps avail asgs d) with
    | none => asgs
    | some e =>
      fillSlot emps avail s d n (asgs ++ [⟨s.sid, e.eid, d, s.startTime, s.endTime⟩])

/-- Slot ordering key: day-of-week ascending, then start time ascending
(spec section 4.1 step 1). -/
def slotLE (a b : ShiftSlot) : Bool :=
  a.day < b.day || (a.day == b.day && a.startTime ≤ b.startTime)

/-- Stable insertion keeping equal keys in input order. -/
def insertSlot (x : ShiftSlot) : List ShiftSlot → List ShiftSlot
  | [] => [x]
  | y :: ys => if slotLE x y then x :: y :: ys else y :: insertSlot x ys

/-- Modelled from the spec: stable sort of the week's slots by
(day-of-week, start time) (spec section 4.1 step 1). -/
def sortSlots (slots : List ShiftSlot) : List ShiftSlot :=
  slots.foldr insertSlot []

/-- Process a list of slots in order, filling each up to its required
headcount. -/
def runSlots (weekStart : Nat) (emps : List Employee)
    (avail : List AvailabilityEntry) : List ShiftSlot → List Assignment → List Assignment
  | [], asgs => asgs
  | s :: rest, asgs =>
    runSlots weekStart emps avail rest (fillSlot emps avail s (weekStart + s.day) s.required asgs)

/-- Modelled from the spec: the Heuristic Assigner of spec section 4.1 -
slots in stable order, each filled greedily from its candidate pool. -/
def heuristicAssign (weekStart : Nat) (slots : List ShiftSlot)
    (emps : List Employee) (avail : List AvailabilityEntry) : List Assignment :=
  runSlots weekStart emps avail (sortSlots slots) []

/-! ## AI Assigner

Modelled from the spec: the primary path of spec section 4.2 - an
external completion call with a bounded timeout whose textual response
must carry a JSON object mapping slot identifiers to employee
identifiers; any failure (timeout, non-JSON response, unknown
identifiers, headcount violations, invariant violations) rejects the
result in full and falls back to the Heuristic Assigner. -/

/-- Outcome of the external completion call: either the bounded timeout
fired (covering network failure) or the service returned response text. -/
inductive AICallResult
  | timeout
  | response (text : String)
deriving Repr

/-- Whitespace recognised between JSON tokens. -/
def isJsonWs (c : Char) : Bool :=
  c == ' ' || c == '\n' || c == '\t' || c == '\r'

/-- Drop leading JSON whitespace. -/
def skipWs : List Char → List Char
  | [] => []
  | c :: cs => if isJsonWs c then skipWs cs else c :: cs

/-- Body of a JSON string literal up to the closing quote (escapes are
not needed for identifier payloads). -/
def takeStringBody : List Char → Option (List Char × List Char)
  | [] => none
  | c :: cs =>
    if c == '"' then some ([], cs)
    else (takeStringBody cs).map (fun r => (c :: r.1, r.2))

/-- A JSON string literal and the remaining input. -/
def parseStringLit (cs : List Char) : Option (String × List Char) :=
  match cs with
  | c :: rest =>
    if c == '"' then (takeStringBody rest).map (fun r => (String.mk r.1, r.2))
    else none
  | [] => none

/-- Comma-separated JSON string literals up to a closing bracket. -/
def parseArrayItems : Nat → List Char → Option (List String × List Char)
  | 0, _ => none
  | f + 1, cs =>
    match parseStringLit (skipWs cs) with
    | none => none
    | some (s, rest) =>
      match skipWs rest with
      | ',' :: more => (parseArrayItems f more).map (fun r => (s :: r.1, r.2))
      | ']' :: more => some ([s], more)
      | _ => none

/-- A JSON array of string literals. -/
def parseArray (fuel : Nat) (cs : List Char) : Option (List String × List Char) :=
  match skipWs cs with
  | '[' :: rest =>
    match skipWs rest with
    | ']' :: more => some ([], more)
    | _ => parseArrayItems fuel rest
  | _ => none

/-- Comma-separated JSON object members mapping a string key to an
array of strings, up to the closing brace. -/
def parsePairs : Nat → List Char → Option (List (String × List String) × List Char)
  | 0, _ => none
  | f + 1, cs =>
    match parseStringLit (skipWs cs) with
    | none => none
    | some (k, rest) =>
      match skipWs rest with
      | ':' :: afterColon =>
        match parseArray f afterColon with
        | none => none
        | some (vs, rest2) =>
          match skipWs rest2 with
          | ',' :: more => (parsePairs f more).map (fun r => ((k, vs) :: r.1, r.2))
          | '}' :: more => some ([(k, vs)], more)
          | _ => none
      | _ => none

/-- Modelled from the spec: extraction of the JSON assignment plan from
the response text (spec section 4.2, "Expects a JSON payload mapping
slots to employee identifiers").  The response must be a single JSON
object whose members map a slot identifier to an array of employee
identifiers; anything else is a non-JSON response and parses to none. -/
def parsePlan (s : String) : Option (List (String × List String)) :=
  let cs := s.data
  match skipWs cs with
  | '{' :: rest =>
    match skipWs rest with
    | '}' :: more => if (skipWs more).isEmpty then some [] else none
    | _ =>
      match parsePairs (cs.length + 1) rest with
      | some (pairs, rest2) => if (skipWs rest2).isEmpty then some pairs else none
      | none => none
  | _ => none

/-- The configured slot with a given row identifier. -/
def findSlot (slots : List ShiftSlot) (sid : String) : Option ShiftSlot :=
  slots.find? (fun s => s.sid == sid)

/-- Modelled from the spec: turn the parsed plan into Shift Assignments,
failing on a reference to an unknown slot identifier (spec section 4.2). -/
def planToAssignments (weekStart : Nat) (slots : List ShiftSlot) :
    List (String × List String) → Option (List Assignment)
  | [] => some []
  | (sid, es) :: rest =>
    match findSlot slots sid with
    | none => none
    | some s =>
      (planToAssignments weekStart slots rest).map
        (fun t =>
          es.map (fun e => ⟨s.sid, e, weekStart + s.day, s.startTime, s.endTime⟩) ++ t)

/-- Whether an employee identifier is on the roster. -/
def knownEmployee (emps : List Employee) (e : String) : Bool :=
  emps.any (fun x => x.eid == e)

/-- Modelled from the spec: per-slot headcount check - the plan may not
assign beyond a slot's required headcount (spec section 4.2). -/
def headcountsOk (slots : List ShiftSlot) (plan : List (String × List String)) : Bool :=
  plan.all (fun p =>
    match findSlot slots p.1 with
    | some s => p.2.length ≤ s.required
    | none => false)

/-- Day-level double-booking check: no employee appears twice on the
same date in the assignment set. -/
def noDoubleBooking : List Assignment → Bool
  | [] => true
  | a :: rest => !(bookedOn rest a.emp a.date) && noDoubleBooking rest

/-- Availability check: every assignment's employee is available on the
assignment's date. -/
def allAvailable (avail : List AvailabilityEntry) (asgs : List Assignment) : Bool :=
  asgs.all (fun a => availableOn avail a.emp a.date)

/-- Modelled from the spec: validation of a parsed AI plan - known
employee identifiers, headcounts within slot capacity, and the same
day-level double-booking and availability invariants as the heuristic
path (spec section 4.2); any violation rejects the result in full. -/
def validAIResult (emps : List Employee) (avail : List AvailabilityEntry)
    (slots : List ShiftSlot) (plan : List (String × List String))
    (asgs : List Assignment) : Bool :=
  plan.all (fun p => p.2.all (knownEmployee emps)) &&
  headcountsOk slots plan &&
  noDoubleBooking asgs &&
  allAvailable avail asgs

/-- Modelled from the spec: the schedule-generation pipeline (spec
sections 2 and 4.2) - the AI path is attempted first; on timeout,
non-JSON response, unknown identifiers or validation failure the
result is rejected in full and the Heuristic Assigner produces the
result from the same inputs. -/
def generateSchedule (weekStart : Nat) (slots : List ShiftSlot)
    (emps : List Employee) (avail : List AvailabilityEntry)
    (ai : AICallResult) : List Assignment :=
  match ai with
  | AICallResult.timeout => heuristicAssign weekStart slots emps avail
  | AICallResult.response text =>
    match parsePlan text with
    | none => heuristicAssign weekStart slots emps avail
    | some plan =>
      match planToAssignments weekStart slots plan with
      | none => heuristicAssign weekStart slots emps avail
      | some asgs =>
        if validAIResult emps avail slots plan asgs then asgs
        else heuristicAssign weekStart slots emps avail

/-! ## Schedule Writer

Modelled from the spec: persistence with replace semantics for a
(business, week-start) key (spec section 4.3). -/

/-- A persisted shift row: the business and week-start key together
with the assignment data. -/
structure ShiftRow where
  business : String
  weekStart : Nat
  asg : Assignment
deriving DecidableEq, Repr

/-- Whether a row belongs to a (business, week-start) key. -/
def rowInWeek (biz : String) (ws : Nat) (r : ShiftRow) : Bool :=
  r.business == biz && r.weekStart == ws

/-- Modelled from the spec: the Schedule Writer - atomically replace
all existing rows for (business, week-start) with the new assignment
list (spec section 4.3, no incremental merge, full replace). -/
def scheduleWrite (db : List ShiftRow) (biz : String) (ws : Nat)
    (asgs : List Assignment) : List ShiftRow :=
  db.filter (fun r => !(rowInWeek biz ws r)) ++ asgs.map (fun a => ⟨biz, ws, a⟩)

/-! ## General helper lemmas -/

theorem beq_symm_of_lawful {α : Type} [BEq α] [LawfulBEq α] (x y : α) :
    (x == y) = (y == x) := by
  by_cases h : x = y
  · subst h; rfl
  · have h1 : (x == y) = false := by
      cases hb : x == y with
      | false => rfl
      | true => exact absurd (eq_of_beq hb) h
    have h2 : (y == x) = false := by
      cases hb : y == x with
      | false => rfl
      | true => exact absurd (eq_of_beq hb).symm h
    rw [h1, h2]

theorem filter_after_filter_not {α : Type} (p : α → Bool) (l : List α) :
    (l.filter (fun x => !(p x))).filter p = [] := by
  induction l with
  | nil => rfl
  | cons a t ih =>
    by_cases h : p a = true
    · simp [List.filter_cons, h, ih]
    · simp only [Bool.not_eq_true] at h
      simp [List.filter_cons, h, ih]

theorem filter_idem {α : Type} (p : α → Bool) (l : List α) :
    (l.filter p).filter p = l.filter p := by
  induction l with
  | nil => rfl
  | cons a t ih =>
    by_cases h : p a = true
    · simp [List.filter_cons, h, ih]
    · simp only [Bool.not_eq_true] at h
      simp [List.filter_cons, h, ih]

/-! ## Schedule Writer lemmas -/

theorem filter_week_map_pos (biz : String) (ws : Nat) (asgs : List Assignment) :
    (asgs.map (fun a => (⟨biz, ws, a⟩ : ShiftRow))).filter (fun r => rowInWeek biz ws r)
      = asgs.map (fun a => (⟨biz, ws, a⟩ : ShiftRow)) := by
  induction asgs with
  | nil => rfl
  | cons a t ih => simp [List.filter_cons, rowInWeek, ih]

theorem filter_week_map_neg (biz : String) (ws : Nat) (asgs : List Assignment) :
    (asgs.map (fun a => (⟨biz, ws, a⟩ : ShiftRow))).filter (fun r => !(rowInWeek biz ws r))
      = [] := by
  induction asgs with
  | nil => rfl
  | cons a t ih => simp [List.filter_cons, rowInWeek, ih]

theorem scheduleWrite_idem (db : List ShiftRow) (biz : String) (ws : Nat)
    (asgs : List Assignment) :
    scheduleWrite (scheduleWrite db biz ws asgs) biz ws asgs
      = scheduleWrite db biz ws asgs := by
  unfold scheduleWrite
  rw [List.filter_append, filter_idem, filter_week_map_neg, List.append_nil]

/-! ## Claim theorems for the Schedule Writer and the fallback path -/

/-- C2: persisting a newly generated schedule replaces all prior Shift
Assignment rows for the (business, week-start) key - the persisted
state for that key is exactly the new assignment list, and rows under
every other key are untouched, so no state holds old and new
assignments for the same week together. -/
theorem c2_schedule_write_replaces (db : List ShiftRow) (biz : String) (ws : Nat)
    (asgs : List Assignment) :
    (scheduleWrite db biz ws asgs).filter (fun r => rowInWeek biz ws r)
        = asgs.map (fun a => (⟨biz, ws, a⟩ : ShiftRow)) ∧
    (scheduleWrite db biz ws asgs).filter (fun r => !(rowInWeek biz ws r))
        = db.filter (fun r => !(rowInWeek biz ws r)) := by
  constructor
  · unfold scheduleWrite
    rw [List.filter_append, filter_after_filter_not, filter_week_map_pos, List.nil_append]
  · unfold scheduleWrite
    rw [List.filter_append, filter_idem, filter_week_map_neg, List.append_nil]

/-- C3: on a timeout of the AI completion call, or on the non-JSON
response text "not json", the generation result is exactly the
Heuristic Assigner's result on the same inputs - the AI result is
rejected in full. -/
theorem c3_fallback_on_timeout_or_not_json (weekStart : Nat) (slots : List ShiftSlot)
    (emps : List Employee) (avail : List AvailabilityEntry) :
    generateSchedule weekStart slots emps avail AICallResult.timeout
        = heuristicAssign weekStart slots emps avail ∧
    generateSchedule weekStart slots emps avail (AICallResult.response "not json")
        = heuristicAssign weekStart slots emps avail := by
  constructor
  · rfl
  · have h : parsePlan "not json" = none := by decide
    simp [generateSchedule, h]

/-- C6: the deterministic (non-AI) generation path is a pure function
of its inputs, so two runs for the same week with identical inputs
produce the same assignment set; writing that set for the week twice
leaves the persisted state of the first write unchanged. -/
theorem c6_deterministic_regeneration (weekStart : Nat) (slots : List ShiftSlot)
    (emps : List Employee) (avail : List AvailabilityEntry)
    (db : List ShiftRow) (biz : String) :
    heuristicAssign weekStart slots emps avail
        = heuristicAssign weekStart slots emps avail ∧
    scheduleWrite (scheduleWrite db biz weekStart (heuristicAssign weekStart slots emps avail))
        biz weekStart (heuristicAssign weekStart slots emps avail)
      = scheduleWrite db biz weekStart (heuristicAssign weekStart slots emps avail) :=
  ⟨rfl, scheduleWrite_idem db biz weekStart (heuristicAssign weekStart slots emps avail)⟩

/-! ## Claim theorems for the frontend handlers -/

/-- C10: the permission checks of the auth context - an admin role
passes hasPermission, hasAnyPermission and hasAllPermissions regardless
of the stored permissions list, and for a non-admin role hasPermission
holds exactly when the permission is a member of the stored list. -/
theorem c10_permission_checks (st : AuthState) (p : String) (perms : List String) :
    (st.role = some "admin" →
      hasPermission st p = true ∧ hasAnyPermission st perms = true ∧
        hasAllPermissions st perms = true) ∧
    (st.role ≠ some "admin" →
      (hasPermission st p = true ↔ p ∈ st.permissions)) := by
  constructor
  · intro h
    refine ⟨?_, ?_, ?_⟩ <;> simp [hasPermission, hasAnyPermission, hasAllPermissions, h]
  · intro h
    have hb : (st.role == some "admin") = false := by
      cases hb : st.role == some "admin" with
      | false => rfl
      | true => exact absurd (eq_of_beq hb) h
    simp [hasPermission, hb, List.elem_iff]

/-- C10 witness at a concrete state. -/
theorem c10_permission_checks_witness :
    hasPermission ⟨some "admin", []⟩ "inventory.write" = true ∧
    (hasPermission ⟨some "employee", ["a", "b"]⟩ "b" = true ↔
      "b" ∈ (["a", "b"] : List String)) :=
  ⟨((c10_permission_checks ⟨some "admin", []⟩ "inventory.write" []).1 rfl).1,
   (c10_permission_checks ⟨some "employee", ["a", "b"]⟩ "b" []).2 (by decide)⟩

/-- C9 counterexample: the claim's closing clause "no client-initiated
quantity update ever requests a quantity below zero" fails - the
unguarded handleAddItem, on an item whose stored quantity is -2 (a
value the creation form accepts), issues a PUT carrying quantity -1. -/
theorem c9_counterexample :
    handleAddItem ⟨7, -2⟩ = some (-1) ∧ ((-1 : Int) < 0) := by
  constructor
  · rfl
  · decide

/-- C9 (amended): handleUseItem issues no update request when the
current quantity is at or below zero, any request it does issue
carries a non-negative quantity, and handleBulkAdjust never issues a
request carrying a negative quantity; the zero floor therefore holds
for the decrement and bulk-adjust paths (handleAddItem is unguarded). -/
theorem c9_quantity_floor (item : InvItem) (amount : String) :
    (item.currentQuantity ≤ 0 → handleUseItem item = none) ∧
    (∀ q, handleUseItem item = some q → 0 ≤ q) ∧
    (∀ q, handleBulkAdjust item amount = some q → 0 ≤ q) := by
  refine ⟨?_, ?_, ?_⟩
  · intro h
    simp [handleUseItem, h]
  · intro q hq
    unfold handleUseItem at hq
    by_cases h : item.currentQuantity ≤ 0
    · simp [h] at hq
    · rw [if_neg h] at hq
      have := Option.some.inj hq
      omega
  · intro q hq
    unfold handleBulkAdjust at hq
    by_cases h0 : (amount == "") = true
    · simp [h0] at hq
    · rw [Bool.not_eq_true] at h0
      rw [h0] at hq
      simp only [Bool.false_eq_true, if_false] at hq
      cases hp : parseIntJS amount with
      | none => rw [hp] at hq; cases hq
      | some adjustment =>
        rw [hp] at hq
        simp only at hq
        by_cases hneg : item.currentQuantity + adjustment < 0
        · rw [if_pos hneg] at hq; cases hq
        · rw [if_neg hneg] at hq
          have := Option.some.inj hq
          omega

/-- C9 witness at concrete inputs. -/
theorem c9_quantity_floor_witness :
    handleUseItem ⟨1, 0⟩ = none ∧ (0 : Int) ≤ 2 :=
  ⟨(c9_quantity_floor ⟨1, 0⟩ "x").1 (by decide),
   (c9_quantity_floor ⟨2, 5⟩ "-3").2.2 2 (by decide)⟩

/-- C8 counterexample: the legacy Employees create form can submit the
strength value "strong", which is outside the {new, normal,
shiftleader} domain the claim states. -/
theorem c8_counterexample :
    LegacyFormStrength "strong" ∧ "strong" ∉ currentStrengthOptions := by
  constructor
  · exact LegacyFormStrength.select "strong" (by decide)
  · decide

/-- C8 (amended): each employee-strength operation preserves the value
domain of its own UI revision - the current page's update handler only
submits values from {new, normal, shiftleader}, and the legacy create
form only submits values from {strong, normal, new}. -/
theorem c8_strength_domains (s : String) :
    (CurrentStrengthUpdate s → s ∈ currentStrengthOptions) ∧
    (LegacyFormStrength s → s ∈ legacyStrengthOptions) := by
  constructor
  · intro h
    cases h
    assumption
  · intro h
    cases h
    · decide
    · assumption

/-- C8 witness at concrete values. -/
theorem c8_strength_domains_witness :
    "shiftleader" ∈ currentStrengthOptions ∧ "strong" ∈ legacyStrengthOptions :=
  ⟨(c8_strength_domains "shiftleader").1
      (CurrentStrengthUpdate.select "shiftleader" (by decide)),
   (c8_strength_domains "strong").2
      (LegacyFormStrength.select "strong" (by decide))⟩

/-- C7: an employee with no Availability Entry for a slot's date is
excluded from that slot's candidate pool - absence of an entry is
treated as unavailable. -/
theorem c7_missing_entry_excludes (emps : List Employee)
    (avail : List AvailabilityEntry) (asgs : List Assignment) (d : Nat)
    (e : Employee)
    (h : ∀ ent ∈ avail, ¬(ent.emp = e.eid ∧ ent.date = d)) :
    e ∉ candidatePool emps avail asgs d := by
  intro hmem
  have hpred := List.of_mem_filter hmem
  simp only [Bool.and_eq_true] at hpred
  have hav : availableOn avail e.eid d = true := hpred.1.2
  unfold availableOn at hav
  cases hf : avail.find? (fun a => a.emp == e.eid && a.date == d) with
  | none => rw [hf] at hav; cases hav
  | some ent =>
    have hent : ent ∈ avail := List.mem_of_find?_eq_some hf
    have hp := List.find?_some hf
    simp only [Bool.and_eq_true, beq_iff_eq] at hp
    exact h ent hent ⟨hp.1, hp.2⟩

/-! ## Heuristic Assigner lemmas -/

theorem foldl_min_mem (asgs : List Assignment) (t : List Employee) (a : Employee) :
    t.foldl
      (fun best c => if assignCount asgs c.eid < assignCount asgs best.eid then c else best) a
      ∈ a :: t := by
  induction t generalizing a with
  | nil => simp
  | cons b t ih =>
    simp only [List.foldl_cons]
    by_cases h : assignCount asgs b.eid < assignCount asgs a.eid
    · rw [if_pos h]
      have := ih b
      simp only [List.mem_cons] at this ⊢
      tauto
    · rw [if_neg h]
      have := ih a
      simp only [List.mem_cons] at this ⊢
      tauto

theorem pickLeastLoaded_mem {asgs : List Assignment} {pool : List Employee}
    {e : Employee} (h : pickLeastLoaded asgs pool = some e) : e ∈ pool := by
  cases pool with
  | nil => cases h
  | cons a t =>
    have he : e = t.foldl
        (fun best c => if assignCount asgs c.eid < assignCount asgs best.eid then c else best)
        a := (Option.some.inj h).symm
    rw [he]
    exact foldl_min_mem asgs t a

theorem pickCandidate_mem {asgs : List Assignment} {k : Nat} {pool : List Employee}
    {e : Employee} (h : pickCandidate asgs k pool = some e) : e ∈ pool := by
  unfold pickCandidate at h
  cases hp : pickLeastLoaded asgs pool with
  | none => rw [hp] at h; cases h
  | some e1 =>
    rw [hp] at h
    simp only at h
    by_cases hc : (k == 0 && e1.strength == "new") = true
    · rw [if_pos hc] at h
      cases hq : pickLeastLoaded asgs (pool.filter (fun c => !(c.strength == "new"))) with
      | none =>
        rw [hq] at h
        have he : e = e1 := (Option.some.inj h).symm
        rw [he]
        exact pickLeastLoaded_mem hp
      | some e2 =>
        rw [hq] at h
        have he : e = e2 := (Option.some.inj h).symm
        rw [he]
        exact List.mem_of_mem_filter (pickLeastLoaded_mem hq)
    · rw [if_neg hc] at h
      have he : e = e1 := (Option.some.inj h).symm
      rw [he]
      exact pickLeastLoaded_mem hp

theorem pickCandidate_cons (asgs : List Assignment) (k : Nat) (c : Employee)
    (cs : List Employee) : ∃ e, pickCandidate asgs k (c :: cs) = some e := by
  unfold pickCandidate
  simp only [pickLeastLoaded]
  split
  · split
    · exact ⟨_, rfl⟩
    · exact ⟨_, rfl⟩
  · exact ⟨_, rfl⟩

theorem bookedOn_append (asgs : List Assignment) (a : Assignment) (e : String) (d : Nat) :
    bookedOn (asgs ++ [a]) e d = (bookedOn asgs e d || (a.emp == e && a.date == d)) := by
  simp [bookedOn, List.any_append]

theorem pool_member_facts {emps : List Employee} {avail : List AvailabilityEntry}
    {asgs : List Assignment} {d : Nat} {e : Employee}
    (h : e ∈ candidatePool emps avail asgs d) :
    e.active = true ∧ availableOn avail e.eid d = true ∧ bookedOn asgs e.eid d = false := by
  have hpred := List.of_mem_filter h
  simp only [Bool.and_eq_true, Bool.not_eq_true'] at hpred
  exact ⟨hpred.1.1, hpred.1.2, hpred.2⟩

/-- Adding one assignment whose employee is free on its date preserves
the no-double-booking invariant. -/
theorem noDoubleBooking_push (asgs : List Assignment) (a : Assignment)
    (h : noDoubleBooking asgs = true) (hb : bookedOn asgs a.emp a.date = false) :
    noDoubleBooking (asgs ++ [a]) = true := by
  induction asgs with
  | nil => simp [noDoubleBooking, bookedOn]
  | cons b t ih =>
    simp only [noDoubleBooking, Bool.and_eq_true, Bool.not_eq_true'] at h
    simp only [bookedOn, List.any_cons, Bool.or_eq_false_iff] at hb
    simp only [List.cons_append, noDoubleBooking, Bool.and_eq_true, Bool.not_eq_true']
    constructor
    · rw [show List.append t [a] = t ++ [a] from rfl, bookedOn_append, Bool.or_eq_false_iff]
      refine ⟨h.1, ?_⟩
      rw [beq_symm_of_lawful a.emp b.emp, beq_symm_of_lawful a.date b.date]
      exact hb.1
    · exact ih h.2 (by simpa [bookedOn] using hb.2)

/-- Filling a slot preserves the no-double-booking invariant. -/
theorem fillSlot_noDouble (emps : List Employee) (avail : List AvailabilityEntry)
    (s : ShiftSlot) (d : Nat) :
    ∀ (n : Nat) (asgs : List Assignment), noDoubleBooking asgs = true →
      noDoubleBooking (fillSlot emps avail s d n asgs) = true := by
  intro n
  induction n with
  | zero => intro asgs h; exact h
  | succ n ih =>
    intro asgs h
    unfold fillSlot
    cases hp : pickCandidate asgs (countSlot asgs s.sid) (candidatePool emps avail asgs d) with
    | none => exact h
    | some e =>
      apply ih
      have hfree := (pool_member_facts (pickCandidate_mem hp)).2.2
      exact noDoubleBooking_push asgs ⟨s.sid, e.eid, d, s.startTime, s.endTime⟩ h hfree

/-- Processing any slot list preserves the no-double-booking invariant. -/
theorem runSlots_noDouble (weekStart : Nat) (emps : List Employee)
    (avail : List AvailabilityEntry) :
    ∀ (l : List ShiftSlot) (asgs : List Assignment), noDoubleBooking asgs = true →
      noDoubleBooking (runSlots weekStart emps avail l asgs) = true := by
  intro l
  induction l with
  | nil => intro asgs h; exact h
  | cons s rest ih =>
    intro asgs h
    exact ih _ (fillSlot_noDouble emps avail s (weekStart + s.day) s.required asgs h)

theorem heuristicAssign_noDouble (weekStart : Nat) (slots : List ShiftSlot)
    (emps : List Employee) (avail : List AvailabilityEntry) :
    noDoubleBooking (heuristicAssign weekStart slots emps avail) = true :=
  runSlots_noDouble weekStart emps avail (sortSlots slots) [] rfl

/-- Adding an assignment whose employee is available on its date
preserves the all-available invariant. -/
theorem allAvailable_push (avail : List AvailabilityEntry) (asgs : List Assignment)
    (a : Assignment) (h : allAvailable avail asgs = true)
    (ha : availableOn avail a.emp a.date = true) :
    allAvailable avail (asgs ++ [a]) = true := by
  simp only [allAvailable, List.all_append, List.all_cons, List.all_nil,
    Bool.and_eq_true] at h ha ⊢
  exact ⟨h, ha, trivial⟩

/-- Filling a slot preserves the all-available invariant. -/
theorem fillSlot_allAvailable (emps : List Employee) (avail : List AvailabilityEntry)
    (s : ShiftSlot) (d : Nat) :
    ∀ (n : Nat) (asgs : List Assignment), allAvailable avail asgs = true →
      allAvailable avail (fillSlot emps avail s d n asgs) = true := by
  intro n
  induction n with
  | zero => intro asgs h; exact h
  | succ n ih =>
    intro asgs h
    unfold fillSlot
    cases hp : pickCandidate asgs (countSlot asgs s.sid) (candidatePool emps avail asgs d) with
    | none => exact h
    | some e =>
      apply ih
      have hav := (pool_member_facts (pickCandidate_mem hp)).2.1
      exact allAvailable_push avail asgs ⟨s.sid, e.eid, d, s.startTime, s.endTime⟩ h hav

/-- Processing any slot list preserves the all-available invariant. -/
theorem runSlots_allAvailable (weekStart : Nat) (emps : List Employee)
    (avail : List AvailabilityEntry) :
    ∀ (l : List ShiftSlot) (asgs : List Assignment), allAvailable avail asgs = true →
      allAvailable avail (runSlots weekStart emps avail l asgs) = true := by
  intro l
  induction l with
  | nil => intro asgs h; exact h
  | cons s rest ih =>
    intro asgs h
    exact ih _ (fillSlot_allAvailable emps avail s (weekStart + s.day) s.required asgs h)

theorem heuristicAssign_allAvailable (weekStart : Nat) (slots : List ShiftSlot)
    (emps : List Employee) (avail : List AvailabilityEntry) :
    allAvailable avail (heuristicAssign weekStart slots emps avail) = true :=
  runSlots_allAvailable weekStart emps avail (sortSlots slots) [] rfl

/-- Both generation paths satisfy the no-double-booking check. -/
theorem generateSchedule_noDouble (weekStart : Nat) (slots : List ShiftSlot)
    (emps : List Employee) (avail : List AvailabilityEntry) (ai : AICallResult) :
    noDoubleBooking (generateSchedule weekStart slots emps avail ai) = true := by
  cases ai with
  | timeout => exact heuristicAssign_noDouble weekStart slots emps avail
  | response text =>
    cases hp : parsePlan text with
    | none =>
      simp only [generateSchedule, hp]
      exact heuristicAssign_noDouble weekStart slots emps avail
    | some plan =>
      cases ha2 : planToAssignments weekStart slots plan with
      | none =>
        simp only [generateSchedule, hp, ha2]
        exact heuristicAssign_noDouble weekStart slots emps avail
      | some asgs =>
        simp only [generateSchedule, hp, ha2]
        by_cases hv : validAIResult emps avail slots plan asgs = true
        · rw [if_pos hv]
          unfold validAIResult at hv
          simp only [Bool.and_eq_true] at hv
          exact hv.1.2
        · rw [if_neg hv]
          exact heuristicAssign_noDouble weekStart slots emps avail

/-- Both generation paths satisfy the all-available check. -/
theorem generateSchedule_allAvailable (weekStart : Nat) (slots : List ShiftSlot)
    (emps : List Employee) (avail : List AvailabilityEntry) (ai : AICallResult) :
    allAvailable avail (generateSchedule weekStart slots emps avail ai) = true := by
  cases ai with
  | timeout => exact heuristicAssign_allAvailable weekStart slots emps avail
  | response text =>
    cases hp : parsePlan text with
    | none =>
      simp only [generateSchedule, hp]
      exact heuristicAssign_allAvailable weekStart slots emps avail
    | some plan =>
      cases ha2 : planToAssignments weekStart slots plan with
      | none =>
        simp only [generateSchedule, hp, ha2]
        exact heuristicAssign_allAvailable weekStart slots emps avail
      | some asgs =>
        simp only [generateSchedule, hp, ha2]
        by_cases hv : validAIResult emps avail slots plan asgs = true
        · rw [if_pos hv]
          unfold validAIResult at hv
          simp only [Bool.and_eq_true] at hv
          exact hv.2
        · rw [if_neg hv]
          exact heuristicAssign_allAvailable weekStart slots emps avail

/-! ## Slot-filling count lemmas -/

theorem candidatePool_append (emps : List Employee) (avail : List AvailabilityEntry)
    (asgs : List Assignment) (a : Assignment) :
    candidatePool emps avail (asgs ++ [a]) a.date
      = (candidatePool emps avail asgs a.date).filter (fun c => !(a.emp == c.eid)) := by
  unfold candidatePool
  rw [List.filter_filter]
  apply List.filter_congr
  intro e _
  rw [show bookedOn (asgs ++ [a]) e.eid a.date
      = (bookedOn asgs e.eid a.date || (a.emp == e.eid && a.date == a.date)) from
    bookedOn_append asgs a e.eid a.date]
  cases e.active <;> cases availableOn avail e.eid a.date <;>
    cases hb : bookedOn asgs e.eid a.date <;> cases hae : a.emp == e.eid <;> simp

theorem length_filter_remove (e : Employee) :
    ∀ (pool : List Employee), e ∈ pool →
      ((pool.map (fun x => x.eid)).Nodup) →
      (pool.filter (fun c => !(e.eid == c.eid))).length = pool.length - 1 := by
  intro pool
  induction pool with
  | nil => intro hmem; cases hmem
  | cons b t ih =>
    intro hmem hnd
    simp only [List.map_cons, List.nodup_cons] at hnd
    cases List.mem_cons.mp hmem with
    | inl hh =>
      have hpb : (!(e.eid == b.eid)) ≠ true := by
        rw [hh]; simp
      rw [@List.filter_cons_of_neg _ (fun c => !(e.eid == c.eid)) b t hpb]
      have hself : t.filter (fun c => !(e.eid == c.eid)) = t := by
        rw [List.filter_eq_self]
        intro c hc
        have hne : e.eid ≠ c.eid := by
          intro heq
          apply hnd.1
          rw [hh] at heq
          rw [heq]
          exact List.mem_map_of_mem _ hc
        simp [beq_eq_false_iff_ne.mpr hne]
      rw [hself]
      simp
    | inr hh =>
      have hne : e.eid ≠ b.eid := by
        intro heq
        apply hnd.1
        rw [← heq]
        exact List.mem_map_of_mem _ hh
      have hpb : (!(e.eid == b.eid)) = true := by
        simp [beq_eq_false_iff_ne.mpr hne]
      rw [@List.filter_cons_of_pos _ (fun c => !(e.eid == c.eid)) b t hpb,
        List.length_cons, ih hh hnd.2, List.length_cons]
      have := List.length_pos_of_mem hh
      omega

theorem pool_map_nodup (emps : List Employee) (avail : List AvailabilityEntry)
    (asgs : List Assignment) (d : Nat)
    (hemp : (emps.map (fun x => x.eid)).Nodup) :
    ((candidatePool emps avail asgs d).map (fun x => x.eid)).Nodup :=
  ((List.filter_sublist emps).map (fun x => x.eid)).nodup hemp

theorem fillSlot_extends (emps : List Employee) (avail : List AvailabilityEntry)
    (s : ShiftSlot) (d : Nat) :
    ∀ (n : Nat) (asgs : List Assignment),
      ∃ t, fillSlot emps avail s d n asgs = asgs ++ t ∧
        ∀ a ∈ t, a.sid = s.sid ∧ a.date = d := by
  intro n
  induction n with
  | zero =>
    intro asgs
    exact ⟨[], by simp [fillSlot], by simp⟩
  | succ n ih =>
    intro asgs
    cases hp : pickCandidate asgs (countSlot asgs s.sid) (candidatePool emps avail asgs d) with
    | none => exact ⟨[], by simp [fillSlot, hp], by simp⟩
    | some e =>
      obtain ⟨t, ht, hall⟩ := ih (asgs ++ [⟨s.sid, e.eid, d, s.startTime, s.endTime⟩])
      refine ⟨⟨s.sid, e.eid, d, s.startTime, s.endTime⟩ :: t, ?_, ?_⟩
      · have hstep : fillSlot emps avail s d (n + 1) asgs
            = fillSlot emps avail s d n (asgs ++ [⟨s.sid, e.eid, d, s.startTime, s.endTime⟩]) := by
          simp [fillSlot, hp]
        rw [hstep, ht, List.append_assoc, List.singleton_append]
      · intro a ha
        cases List.mem_cons.mp ha with
        | inl hh => rw [hh]; exact ⟨rfl, rfl⟩
        | inr hh => exact hall a hh

theorem countSlot_append (asgs t : List Assignment) (sid : String) :
    countSlot (asgs ++ t) sid = countSlot asgs sid + countSlot t sid := by
  simp [countSlot, List.filter_append]

theorem countSlot_eq_zero (t : List Assignment) (sid : String)
    (h : ∀ a ∈ t, a.sid ≠ sid) : countSlot t sid = 0 := by
  simp only [countSlot, List.length_eq_zero, List.filter_eq_nil_iff]
  intro a ha
  simp [h a ha]

theorem fillSlot_count (emps : List Employee) (avail : List AvailabilityEntry)
    (s : ShiftSlot) (d : Nat)
    (hemp : (emps.map (fun x => x.eid)).Nodup) :
    ∀ (n : Nat) (asgs : List Assignment),
      n ≤ (candidatePool emps avail asgs d).length →
      countSlot (fillSlot emps avail s d n asgs) s.sid = countSlot asgs s.sid + n := by
  intro n
  induction n with
  | zero => intro asgs h; simp [fillSlot]
  | succ n ih =>
    intro asgs hlen
    cases hpool : candidatePool emps avail asgs d with
    | nil => rw [hpool] at hlen; simp at hlen
    | cons c cs =>
      obtain ⟨e, hp⟩ := pickCandidate_cons asgs (countSlot asgs s.sid) c cs
      have hp2 : pickCandidate asgs (countSlot asgs s.sid)
          (candidatePool emps avail asgs d) = some e := by
        rw [hpool]; exact hp
      have hmem : e ∈ candidatePool emps avail asgs d := pickCandidate_mem hp2
      have hstep : fillSlot emps avail s d (n + 1) asgs
          = fillSlot emps avail s d n (asgs ++ [⟨s.sid, e.eid, d, s.startTime, s.endTime⟩]) := by
        simp [fillSlot, hp2]
      have hpool2 : candidatePool emps avail
            (asgs ++ [⟨s.sid, e.eid, d, s.startTime, s.endTime⟩]) d
          = (candidatePool emps avail asgs d).filter (fun x => !(e.eid == x.eid)) :=
        candidatePool_append emps avail asgs ⟨s.sid, e.eid, d, s.startTime, s.endTime⟩
      have hlen2 : n ≤ (candidatePool emps avail
          (asgs ++ [⟨s.sid, e.eid, d, s.startTime, s.endTime⟩]) d).length := by
        rw [hpool2, length_filter_remove e (candidatePool emps avail asgs d) hmem
          (pool_map_nodup emps avail asgs d hemp)]
        rw [hpool] at hlen ⊢
        simp only [List.length_cons] at hlen ⊢
        omega
      rw [hstep, ih _ hlen2]
      have hone : countSlot (asgs ++ [⟨s.sid, e.eid, d, s.startTime, s.endTime⟩]) s.sid
          = countSlot asgs s.sid + 1 := by
        rw [countSlot_append]
        simp [countSlot]
      rw [hone]
      omega

theorem runSlots_append (weekStart : Nat) (emps : List Employee)
    (avail : List AvailabilityEntry) :
    ∀ (l1 l2 : List ShiftSlot) (asgs : List Assignment),
      runSlots weekStart emps avail (l1 ++ l2) asgs
        = runSlots weekStart emps avail l2 (runSlots weekStart emps avail l1 asgs) := by
  intro l1
  induction l1 with
  | nil => intro l2 asgs; rfl
  | cons s rest ih =>
    intro l2 asgs
    simp only [List.cons_append, runSlots]
    exact ih l2 _

theorem runSlots_extends (weekStart : Nat) (emps : List Employee)
    (avail : List AvailabilityEntry) :
    ∀ (l : List ShiftSlot) (asgs : List Assignment),
      ∃ t, runSlots weekStart emps avail l asgs = asgs ++ t ∧
        ∀ a ∈ t, a.sid ∈ l.map (fun x => x.sid) := by
  intro l
  induction l with
  | nil => intro asgs; exact ⟨[], by simp [runSlots], by simp⟩
  | cons s rest ih =>
    intro asgs
    obtain ⟨t1, ht1, h1⟩ := fillSlot_extends emps avail s (weekStart + s.day) s.required asgs
    obtain ⟨t2, ht2, h2⟩ := ih (asgs ++ t1)
    refine ⟨t1 ++ t2, ?_, ?_⟩
    · show runSlots weekStart emps avail (s :: rest) asgs = asgs ++ (t1 ++ t2)
      simp only [runSlots]
      rw [ht1, ht2, List.append_assoc]
    · intro a ha
      simp only [List.map_cons, List.mem_cons]
      cases List.mem_append.mp ha with
      | inl h => exact Or.inl ((h1 a h).1)
      | inr h => exact Or.inr (h2 a h)

/-- C1: if, when a slot comes up in the processing order, its candidate
pool (active employees available on the slot's date and not already
booked that day) holds at least the slot's required headcount, then the
Heuristic Assigner's output holds exactly that many assignments for the
slot. -/
theorem c1_heuristic_fills_required (weekStart : Nat) (slots : List ShiftSlot)
    (emps : List Employee) (avail : List AvailabilityEntry)
    (pre post : List ShiftSlot) (s : ShiftSlot)
    (hsplit : sortSlots slots = pre ++ s :: post)
    (hsid : ((pre ++ s :: post).map (fun x => x.sid)).Nodup)
    (hemp : (emps.map (fun x => x.eid)).Nodup)
    (hpool : s.required ≤ (candidatePool emps avail
        (runSlots weekStart emps avail pre []) (weekStart + s.day)).length) :
    countSlot (heuristicAssign weekStart slots emps avail) s.sid = s.required := by
  rw [List.map_append, List.map_cons, List.nodup_append] at hsid
  have hnotpre : s.sid ∉ pre.map (fun x => x.sid) := by
    intro hmem
    exact hsid.2.2 hmem (List.mem_cons_self _ _)
  have hnotpost : s.sid ∉ post.map (fun x => x.sid) :=
    (List.nodup_cons.mp hsid.2.1).1
  unfold heuristicAssign
  rw [hsplit, runSlots_append]
  have hst0 : countSlot (runSlots weekStart emps avail pre []) s.sid = 0 := by
    obtain ⟨t1, ht1, h1⟩ := runSlots_extends weekStart emps avail pre []
    rw [ht1, List.nil_append]
    exact countSlot_eq_zero t1 s.sid (fun a ha heq => hnotpre (heq ▸ (h1 a ha)))
  show countSlot (runSlots weekStart emps avail (s :: post)
      (runSlots weekStart emps avail pre [])) s.sid = s.required
  simp only [runSlots]
  obtain ⟨t2, ht2, h2⟩ := runSlots_extends weekStart emps avail post
    (fillSlot emps avail s (weekStart + s.day) s.required
      (runSlots weekStart emps avail pre []))
  rw [ht2, countSlot_append]
  have h0 : countSlot t2 s.sid = 0 :=
    countSlot_eq_zero t2 s.sid (fun a ha heq => hnotpost (heq ▸ (h2 a ha)))
  have hfill : countSlot (fillSlot emps avail s (weekStart + s.day) s.required
        (runSlots weekStart emps avail pre [])) s.sid
      = countSlot (runSlots weekStart emps avail pre []) s.sid + s.required :=
    fillSlot_count emps avail s (weekStart + s.day) hemp s.required _ hpool
  rw [h0, hfill, hst0]
  omega

/-- C1 witness: a two-headcount slot with two available employees is
filled to exactly two. -/
theorem c1_heuristic_fills_required_witness :
    sortSlots [⟨"s1", 0, "Morning", 540, 1020, 2⟩]
        = [] ++ (⟨"s1", 0, "Morning", 540, 1020, 2⟩ : ShiftSlot) :: [] ∧
    countSlot (heuristicAssign 100 [⟨"s1", 0, "Morning", 540, 1020, 2⟩]
        [⟨"alice", "normal", true⟩, ⟨"bob", "new", true⟩]
        [⟨"alice", 100, true⟩, ⟨"bob", 100, true⟩]) "s1" = 2 :=
  ⟨by decide,
   c1_heuristic_fills_required 100 [⟨"s1", 0, "Morning", 540, 1020, 2⟩]
     [⟨"alice", "normal", true⟩, ⟨"bob", "new", true⟩]
     [⟨"alice", 100, true⟩, ⟨"bob", 100, true⟩] [] []
     ⟨"s1", 0, "Morning", 540, 1020, 2⟩ (by decide) (by decide) (by decide) (by decide)⟩

/-- C4: no run, on either generation path, assigns the same employee
twice on the same day. -/
theorem c4_no_same_day_double_booking (weekStart : Nat) (slots : List ShiftSlot)
    (emps : List Employee) (avail : List AvailabilityEntry) (ai : AICallResult) :
    noDoubleBooking (generateSchedule weekStart slots emps avail ai) = true :=
  generateSchedule_noDouble weekStart slots emps avail ai

/-- With at most one availability entry per (employee, date), a
positive availableOn verdict forces every matching entry to carry
available = true. -/
theorem availableOn_entry_true (avail : List AvailabilityEntry)
    (hkeys : avail.Pairwise (fun x y => ¬(x.emp = y.emp ∧ x.date = y.date)))
    (ent : AvailabilityEntry) (hent : ent ∈ avail) (e : String) (d : Nat)
    (he : ent.emp = e) (hd : ent.date = d)
    (hav : availableOn avail e d = true) : ent.available = true := by
  induction avail with
  | nil => cases hent
  | cons h0 t ih =>
    rw [List.pairwise_cons] at hkeys
    unfold availableOn at hav
    by_cases hpred : (h0.emp == e && h0.date == d) = true
    · rw [@List.find?_cons_of_pos _ (fun a => a.emp == e && a.date == d) h0 t hpred] at hav
      simp only [Bool.and_eq_true, beq_iff_eq] at hpred
      cases List.mem_cons.mp hent with
      | inl hh => rw [hh]; exact hav
      | inr hh =>
        exact absurd ⟨hpred.1.trans he.symm, hpred.2.trans hd.symm⟩ (hkeys.1 ent hh)
    · rw [@List.find?_cons_of_neg _ (fun a => a.emp == e && a.date == d) h0 t hpred] at hav
      cases List.mem_cons.mp hent with
      | inl hh =>
        exfalso
        apply hpred
        rw [← hh]
        simp [he, hd]
      | inr hh =>
        exact ih hkeys.2 hh (by unfold availableOn; exact hav)

/-- C5: provided the spec invariant of at most one Availability Entry
per (employee, date) holds, no assignment of either generation path
references an employee whose entry for the assignment date carries
available = false. -/
theorem c5_no_unavailable_assignment (weekStart : Nat) (slots : List ShiftSlot)
    (emps : List Employee) (avail : List AvailabilityEntry) (ai : AICallResult)
    (hkeys : avail.Pairwise (fun x y => ¬(x.emp = y.emp ∧ x.date = y.date))) :
    ∀ a ∈ generateSchedule weekStart slots emps avail ai, ∀ ent ∈ avail,
      ent.emp = a.emp → ent.date = a.date → ent.available = true := by
  intro a ha ent hent he hd
  have hall := generateSchedule_allAvailable weekStart slots emps avail ai
  unfold allAvailable at hall
  have hav : availableOn avail a.emp a.date = true :=
    List.all_eq_true.mp hall a ha
  exact availableOn_entry_true avail hkeys ent hent a.emp a.date he hd hav

/-- C5 witness: a concrete heuristic run on one slot with one available
and one unavailable employee. -/
theorem c5_no_unavailable_assignment_witness :
    ((([⟨"alice", 100, true⟩, ⟨"carol", 100, false⟩] : List AvailabilityEntry)).Pairwise
      (fun x y => ¬(x.emp = y.emp ∧ x.date = y.date))) ∧
    (∀ a ∈ generateSchedule 100 [⟨"s1", 0, "Morning", 540, 1020, 2⟩]
        [⟨"alice", "normal", true⟩, ⟨"carol", "shiftleader", true⟩]
        [⟨"alice", 100, true⟩, ⟨"carol", 100, false⟩] AICallResult.timeout,
      ∀ ent ∈ ([⟨"alice", 100, true⟩, ⟨"carol", 100, false⟩] : List AvailabilityEntry),
        ent.emp = a.emp → ent.date = a.date → ent.available = true) :=
  ⟨by decide,
   c5_no_unavailable_assignment 100 [⟨"s1", 0, "Morning", 540, 1020, 2⟩]
     [⟨"alice", "normal", true⟩, ⟨"carol", "shiftleader", true⟩]
     [⟨"alice", 100, true⟩, ⟨"carol", 100, false⟩] AICallResult.timeout (by decide)⟩

/-- C7 witness: with an availability list holding no entry for "carol"
on date 100, carol is not in the pool. -/
theorem c7_missing_entry_excludes_witness :
    (∀ ent ∈ ([⟨"alice", 100, true⟩] : List AvailabilityEntry),
      ¬(ent.emp = "carol" ∧ ent.date = 100)) ∧
    (⟨"carol", "normal", true⟩ : Employee) ∉
      candidatePool [⟨"alice", "normal", true⟩, ⟨"carol", "normal", true⟩]
        [⟨"alice", 100, true⟩] [] 100 :=
  ⟨by decide,
   c7_missing_entry_excludes
     [⟨"alice", "normal", true⟩, ⟨"carol", "normal", true⟩]
     [⟨"alice", 100, true⟩] [] 100 ⟨"carol", "normal", true⟩ (by decide)⟩

end Astra
